import Mathlib

/-!
Verification of the ACedIt test-case acquisition and execution harness
(src/acedit/util.py) against its specification.

The Python source is shallowly embedded: pure computations become Lean
functions, the filesystem-backed cache becomes explicit state passing,
subprocess exits become a status number (124 is the timeout sentinel of the
timeout(1) wrapper used by the code), and Python exceptions become Except.
-/

/-! ## Output normalization (util.py lines 317-328)

The harness reads an output file and normalizes it with
read().strip().split(chr(10)) followed by joining the strip() of each line.
Python str.strip with no argument removes the whitespace characters
space, tab, newline, carriage return, vertical tab and form feed from both
ends.  We model strings as their character lists. -/

/-- Python str.strip whitespace set: space, tab, newline, CR, VT, FF. -/
def isPySpace (c : Char) : Bool :=
  c == ' ' || c == '\t' || c == '\n' || c == '\r' || c == '\x0b' || c == '\x0c'

/-- Python str.strip(): drop leading and trailing whitespace. -/
def pyStrip (l : List Char) : List Char :=
  ((l.dropWhile isPySpace).reverse.dropWhile isPySpace).reverse

/-- Python str.split(chr(10)): split on newline; the empty string yields one
empty piece, matching Python semantics. -/
def splitNl : List Char → List (List Char)
  | [] => [[]]
  | c :: cs =>
    match splitNl cs with
    | [] => [[]]
    | p :: ps => if c = '\n' then [] :: p :: ps else (c :: p) :: ps

/-- Python chr(10).join: interleave pieces with a newline. -/
def joinNl : List (List Char) → List Char
  | [] => []
  | [p] => p
  | p :: ps => p ++ '\n' :: joinNl ps

/-- The output normalization of run_command_on_one_test (lines 318-319 and
327-328): strip the whole text, split into lines, strip each line, rejoin. -/
def normalizeList (l : List Char) : List Char :=
  joinNl ((splitNl (pyStrip l)).map pyStrip)

/-- String-level wrapper of the normalization. -/
def normalizeOutput (s : String) : String :=
  String.mk (normalizeList s.data)

/-! ## Verdicts and colored verdict strings (util.py lines 22-34) -/

/-- The four verdicts of the execution harness. -/
inductive Verdict
  | AC
  | WA
  | RTE
  | TLE
  deriving DecidableEq, Repr

/-- ANSI color table of Utilities.colors. -/
def colorOf : String → String
  | "GREEN" => "\x1b[92m"
  | "YELLOW" => "\x1b[93m"
  | "RED" => "\x1b[91m"
  | "ENDC" => "\x1b[0m"
  | "BOLD" => "\x1b[1m"
  | _ => ""

/-- Utilities.verdicts: the colored verdict strings built at lines 29-34. -/
def verdictStr : Verdict → String
  | .AC => colorOf "BOLD" ++ colorOf "GREEN" ++ "AC" ++ colorOf "ENDC"
  | .WA => colorOf "BOLD" ++ colorOf "RED" ++ "WA" ++ colorOf "ENDC"
  | .RTE => colorOf "BOLD" ++ colorOf "RED" ++ "RTE" ++ colorOf "ENDC"
  | .TLE => colorOf "BOLD" ++ colorOf "YELLOW" ++ "TLE" ++ colorOf "ENDC"

/-! ## Per-case execution (util.py lines 312-340)

run_command_on_one_test runs the solution under timeout 2s; os.system's
result is the subprocess exit status, 124 being the sentinel produced by
timeout(1) on deadline expiry (the process-execution collaborator of spec
section 6 returns an exit code or this timeout sentinel).  The function
normalizes the expected file, then branches on the status; the user output
starts as the empty string and is read and normalized only on status 0. -/

/-- Embedding of run_command_on_one_test: given the exit status, the raw
expected-output file content and the raw user-output file content, produce
(expected_output, user_output, results) exactly as lines 314-340 do. -/
def run_command_on_one_test (status : Nat) (expectedFile userFile : String) :
    String × String × String :=
  let expected_output := normalizeOutput expectedFile
  if status = 124 then
    (expected_output, "", verdictStr Verdict.TLE)
  else if status = 0 then
    let user_output := normalizeOutput userFile
    if expected_output = user_output then
      (expected_output, user_output, verdictStr Verdict.AC)
    else
      (expected_output, user_output, verdictStr Verdict.WA)
  else
    (expected_output, "", verdictStr Verdict.RTE)

/-! ## Report assembly: the Your Output column (util.py lines 415-426) -/

/-- Python substring containment (the in operator on strings) on char
lists: some suffix of hay starts with needle. -/
def listContainsSub (hay needle : List Char) : Bool :=
  (List.range (hay.length + 1)).any (fun i => needle.isPrefixOf (hay.drop i))

/-- Python s1 in s2 for strings. -/
def strContainsSub (hay needle : String) : Bool :=
  listContainsSub hay.data needle.data

/-- The Your Output cell of a report row (lines 421-422): the user output
is shown when the colored result string contains the substring AC or WA,
otherwise the cell is the not-applicable marker. -/
def reportUserOutput (result userOutput : String) : String :=
  if strContainsSub result "AC" || strContainsSub result "WA" then
    userOutput
  else
    "N/A"

/-! ## Cache directory model (util.py lines 136-157, 239-252)

The cache is keyed by directory paths under cache_dir; directory existence
is the cache-hit signal.  A state is the list of existing directories, each
as its component path relative to cache_dir. -/

/-- Existing directories under the cache root. -/
abbrev DirState := List (List String)

/-- os.path.isdir on the cache state. -/
def dirExists (st : DirState) (p : List String) : Bool :=
  st.contains p

/-- os.makedirs: create the directory and any missing parents. -/
def makedirs (st : DirState) (p : List String) : DirState :=
  st ++ ((List.range p.length).map (fun i => p.take (i + 1))).filter
    (fun q => !st.contains q)

/-- Contest component of the case path computed by check_cache, line 150:
the value of the local variable contest after the SPOJ special case. -/
def check_cache_contest_component (site contest : String) : String :=
  if site == "spoj" then "" else contest

/-- Embedding of Utilities.check_cache (lines 136-157).  When problem is
absent, the contest directory is ensured and False is returned; otherwise
the SPOJ-normalized case directory decides the hit and is created when
absent.  The result pairs the returned Boolean with the state after the
call. -/
def check_cache (st : DirState) (site contest : String) (problem : Option String) :
    Bool × DirState :=
  match problem with
  | none =>
    if dirExists st [site, contest] then (false, st)
    else (false, makedirs st [site, contest])
  | some p =>
    let contest2 := check_cache_contest_component site contest
    if dirExists st [site, contest2, p] then (true, st)
    else (false, makedirs st [site, contest2, p])

/-! ## Acquisition orchestration (util.py lines 239-252) -/

/-- Outcome of a single-problem acquisition request. -/
inductive AcqOutcome
  | foundInCache
  | scraped
  deriving DecidableEq, Repr

/-- Embedding of Utilities.download_problem_testcases (lines 239-252): run
check_cache on the platform's (site, contest, problem); if force is unset
and the check reported a hit, print the found-in-cache message and exit 0
without scraping; otherwise invoke the platform's scrape_problem. -/
def download_problem_testcases (st : DirState) (site contest problem : String)
    (force : Bool) : AcqOutcome × DirState :=
  let r := check_cache st site contest (some problem)
  if !force && r.1 then
    (AcqOutcome.foundInCache, r.2)
  else
    (AcqOutcome.scraped, r.2)

/-! ## SPOJ contest normalization at every case-path call site (claim C8)

The code computes a case path at four places; each applies the same SPOJ
special case to the contest component.  check_cache_contest_component above
transcribes line 150; the remaining three sites are transcribed here. -/

/-- Contest component of testcases_path in store_files, line 212. -/
def store_files_contest_component (site contest : String) : String :=
  if site == "spoj" then "" else contest

/-- Contest component computed by handle_kbd_interrupt, line 299. -/
def handle_kbd_interrupt_contest_component (site contest : String) : String :=
  if site == "spoj" then "" else contest

/-- Contest component contest_code of testcases_path in run_solution,
line 359. -/
def run_solution_contest_component (site contest : String) : String :=
  if site == "spoj" then "" else contest

/-! ## Test-case file store (util.py lines 201-226)

One case directory holds the i-th input as str(i), the i-th expected
output as str(i) + ".a", and optionally statement.txt.  Decimal index
strings contain no dot and statement.txt does not end in ".a", so the
three name families are disjoint and the names ending in ".a" are exactly
the output names; FName reflects this name space. -/

/-- File names inside one case directory. -/
inductive FName
  | caseIn (i : Nat)
  | caseOut (i : Nat)
  | statementFile
  deriving DecidableEq, Repr

/-- One case directory: an association list from file name to content;
writeFile keeps keys unique by replacing in place. -/
abbrev FS := List (FName × String)

/-- Whether a file of this name exists in the directory. -/
def hasKey (fs : FS) (k : FName) : Bool :=
  fs.any (fun e => e.1 == k)

/-- File names present in the directory. -/
def keysOf (fs : FS) : List FName :=
  fs.map Prod.fst

/-- The writeFile helper of store_files (lines 215-217): open(name, 'w')
replaces the content when the file exists and creates the file
otherwise. -/
def writeFile (fs : FS) (k : FName) (c : String) : FS :=
  if hasKey fs k then
    fs.map (fun e => if e.1 == k then (k, c) else e)
  else
    fs ++ [(k, c)]

/-- Whether a file name ends in ".a" (line 203). -/
def endsWithA : FName → Bool
  | .caseOut _ => true
  | _ => false

/-- Utilities.getTestCasesCount (lines 201-203): the number of files whose
name ends in ".a". -/
def getTestCasesCount (fs : FS) : Nat :=
  (fs.filter (fun e => endsWithA e.1)).length

/-- The enumerate loops of store_files (lines 219-223): write the contents
at successive indices starting at base. -/
def writeEnum (mk : Nat → FName) : Nat → FS → List String → FS
  | _, fs, [] => fs
  | base, fs, c :: cs => writeEnum mk (base + 1) (writeFile fs (mk base) c) cs

/-- The statement write of store_files (lines 225-226): Python
if statement: skips None and the empty string (falsy values). -/
def writeStatement (fs : FS) (statement : Option String) : FS :=
  match statement with
  | some s => if s = "" then fs else writeFile fs FName.statementFile s
  | none => fs

/-- Embedding of Utilities.store_files (lines 205-226) acting on one case
directory (the directory itself is selected by the SPOJ-normalized path of
line 212, transcribed as store_files_contest_component): compute num_cases
once, write inputs at indices num_cases, num_cases+1, ..., then outputs at
the same indices with the ".a" suffix, then the statement if truthy. -/
def store_files (fs : FS) (inputs outputs : List String)
    (statement : Option String) : FS :=
  let num_cases := getTestCasesCount fs
  let fs1 := writeEnum FName.caseIn num_cases fs inputs
  let fs2 := writeEnum FName.caseOut num_cases fs1 outputs
  writeStatement fs2 statement

/-- The directory never holds two files of the same name. -/
def KeysNodup (fs : FS) : Prop :=
  (keysOf fs).Nodup

/-- A canonically laid-out case directory: unique names, output files are
exactly 0.a .. (n-1).a, and every input index is below n.  This is the
layout produced by acquisition and preserved by store_files. -/
def CanonicalDir (fs : FS) (n : Nat) : Prop :=
  KeysNodup fs
  ∧ (∀ i, hasKey fs (FName.caseOut i) = true ↔ i < n)
  ∧ (∀ i, hasKey fs (FName.caseIn i) = true → i < n)

/-! ## Batch fetching (util.py lines 549-568 and 600-602; the same handler
structure appears at lines 683-707 for Codechef and 900-920 for Hackerrank)

grq.map returns, per link, either a response object (with status_code and
url) or None on complete transport failure.  Each handle_batch_requests
walks the responses: a 200 response is parsed and stored (that branch
touches only the cache, never the failed list, and is elided as
collaborator work - raw scraping is outside the core per spec section 1);
any other response reaches the else branch, which evaluates response.url
and appends it to failed_requests - for a None response this attribute
access raises AttributeError in Python. -/

/-- A completed fetch: a response with its status and resolved url, or None
on complete transport failure. -/
inductive Resp
  | ok (url : String)
  | bad (url : String)
  | null
  deriving DecidableEq, Repr

/-- The Python AttributeError raised by evaluating None.url. -/
inductive PyAttrError
  | noneHasNoUrl
  deriving DecidableEq, Repr

/-- Codeforces.handle_batch_requests (lines 549-568): failed-list result. -/
def cf_handle_batch_requests : List Resp → Except PyAttrError (List String)
  | [] => Except.ok []
  | Resp.ok _ :: rs => cf_handle_batch_requests rs
  | Resp.bad u :: rs => (cf_handle_batch_requests rs).map (fun l => u :: l)
  | Resp.null :: _ => Except.error PyAttrError.noneHasNoUrl

/-- Codechef.handle_batch_requests (lines 683-707): failed-list result. -/
def cc_handle_batch_requests : List Resp → Except PyAttrError (List String)
  | [] => Except.ok []
  | Resp.ok _ :: rs => cc_handle_batch_requests rs
  | Resp.bad u :: rs => (cc_handle_batch_requests rs).map (fun l => u :: l)
  | Resp.null :: _ => Except.error PyAttrError.noneHasNoUrl

/-- Hackerrank.handle_batch_requests (lines 900-920): failed-list result. -/
def hr_handle_batch_requests : List Resp → Except PyAttrError (List String)
  | [] => Except.ok []
  | Resp.ok _ :: rs => hr_handle_batch_requests rs
  | Resp.bad u :: rs => (hr_handle_batch_requests rs).map (fun l => u :: l)
  | Resp.null :: _ => Except.error PyAttrError.noneHasNoUrl

/-- One concurrent wave at the transport collaborator: every link yields a
response carrying that link as its url, succeeding (status 200) exactly
when succeeds says so.  Complete transport failures (None) are the subject
of claim C10 and excluded from the retry analysis. -/
def runWave (succeeds : String → Bool) (links : List String) : List Resp :=
  links.map (fun u => if succeeds u then Resp.ok u else Resp.bad u)

/-- The retry phase of Codeforces.scrape_contest (lines 600-602): one batch
call over the links; if any failed, exactly one more batch call over the
failed list and no further retries.  The result pairs the first-wave
failed list with the unresolved list returned by the second
handle_batch_requests call. -/
def scrape_contest_retry (links : List String) (f1 f2 : String → Bool) :
    Except PyAttrError (List String × List String) :=
  match cf_handle_batch_requests (runWave f1 links) with
  | Except.error e => Except.error e
  | Except.ok failed =>
    if failed.length > 0 then
      match cf_handle_batch_requests (runWave f2 failed) with
      | Except.error e => Except.error e
      | Except.ok unresolved => Except.ok (failed, unresolved)
    else
      Except.ok (failed, [])

/-! ## Compile step of run_solution (util.py lines 388-407) -/

/-- The Python NameError raised by evaluating the undefined name prin. -/
inductive PyNameError
  | prinUndefined
  deriving DecidableEq, Repr

/-- The compilation-error message built at lines 400-401. -/
def compile_error_message : String :=
  colorOf "BOLD" ++ colorOf "RED"
    ++ "Compilation error. Not run against test cases" ++ colorOf "ENDC" ++ "."

/-- Embedding of the compile-and-run portion of run_solution (lines
388-403).  When compile_status is 0 every cached case is executed through
run_command_on_one_test, yielding one verdict row per case.  Otherwise the
code builds compile_error_message and then evaluates prin(message) at line
402; prin is an undefined name in this Python 2 module, so a NameError is
raised there - before the message is printed and before sys.exit - and no
case is executed. -/
def run_solution_cases (compile_status : Nat) (num_cases : Nat)
    (runCase : Nat → String × String × String) :
    Except PyNameError (List (String × String × String)) :=
  if compile_status = 0 then
    Except.ok ((List.range num_cases).map runCase)
  else
    Except.error PyNameError.prinUndefined

/-! ## Properties and claim theorems -/

example : normalizeOutput "  a \n  b  " = "a\nb" := by decide

example : normalizeOutput "a\n \nb" = "a\n\nb" := by decide

example : (run_command_on_one_test 124 "x" "y").2.2 = verdictStr Verdict.TLE := by decide

example : (run_command_on_one_test 0 " 6 " "6\n").2.2 = verdictStr Verdict.AC := by decide

example : (run_command_on_one_test 0 "6" "7").2.2 = verdictStr Verdict.WA := by decide

example : (run_command_on_one_test 1 "6" "6").2.2 = verdictStr Verdict.RTE := by decide

/-- C1: For every case execution, the verdict is a pure function of the
subprocess exit status and the normalized outputs: a timeout status yields
TLE regardless of outputs; exit status zero with equal normalized expected
and actual output yields AC; exit status zero with unequal normalized
outputs yields WA; any other non-zero exit status yields RTE. -/
theorem verdict_pure_classification (status : Nat) (e u : String) :
    (status = 124 →
      (run_command_on_one_test status e u).2.2 = verdictStr Verdict.TLE)
  ∧ (status = 0 → normalizeOutput e = normalizeOutput u →
      (run_command_on_one_test status e u).2.2 = verdictStr Verdict.AC)
  ∧ (status = 0 → normalizeOutput e ≠ normalizeOutput u →
      (run_command_on_one_test status e u).2.2 = verdictStr Verdict.WA)
  ∧ (status ≠ 124 → status ≠ 0 →
      (run_command_on_one_test status e u).2.2 = verdictStr Verdict.RTE) := by
  refine ⟨?_, ?_, ?_, ?_⟩
  · intro h
    subst h
    simp [run_command_on_one_test]
  · intro h he
    subst h
    simp [run_command_on_one_test, he]
  · intro h he
    subst h
    simp [run_command_on_one_test, he]
  · intro h1 h2
    simp [run_command_on_one_test, h1, h2]

/-- Witness for C1: the four classification branches at concrete inputs. -/
theorem verdict_pure_classification_witness :
    (run_command_on_one_test 124 "a" "b").2.2 = verdictStr Verdict.TLE
  ∧ (run_command_on_one_test 0 " a " "a").2.2 = verdictStr Verdict.AC
  ∧ (run_command_on_one_test 0 "a" "b").2.2 = verdictStr Verdict.WA
  ∧ (run_command_on_one_test 2 "a" "b").2.2 = verdictStr Verdict.RTE :=
  ⟨(verdict_pure_classification 124 "a" "b").1 rfl,
   (verdict_pure_classification 0 " a " "a").2.1 rfl (by decide),
   (verdict_pure_classification 0 "a" "b").2.2.1 rfl (by decide),
   (verdict_pure_classification 2 "a" "b").2.2.2 (by decide) (by decide)⟩

/-- C9: For every case row in the final report, the produced user output is
shown if and only if the case's verdict is AC or WA; for TLE and RTE
verdicts the user-output column contains the not-applicable marker. -/
theorem report_user_output_shown_iff (v : Verdict) (u : String) :
    reportUserOutput (verdictStr v) u =
      if v = Verdict.AC ∨ v = Verdict.WA then u else "N/A" := by
  cases v
  case AC =>
    have h : (strContainsSub (verdictStr Verdict.AC) "AC"
        || strContainsSub (verdictStr Verdict.AC) "WA") = true := by decide
    simp [reportUserOutput, h]
  case WA =>
    have h : (strContainsSub (verdictStr Verdict.WA) "AC"
        || strContainsSub (verdictStr Verdict.WA) "WA") = true := by decide
    simp [reportUserOutput, h]
  case RTE =>
    have h : (strContainsSub (verdictStr Verdict.RTE) "AC"
        || strContainsSub (verdictStr Verdict.RTE) "WA") = false := by decide
    simp [reportUserOutput, h]
  case TLE =>
    have h : (strContainsSub (verdictStr Verdict.TLE) "AC"
        || strContainsSub (verdictStr Verdict.TLE) "WA") = false := by decide
    simp [reportUserOutput, h]

/-! ## Idempotence of the normalization (claim C6)

Structural lemmas about splitNl, joinNl and pyStrip, leading to
normalizeList being idempotent. -/

theorem joinNl_single (p : List Char) : joinNl [p] = p := rfl

theorem joinNl_cons_cons (p q : List Char) (ps : List (List Char)) :
    joinNl (p :: q :: ps) = p ++ '\n' :: joinNl (q :: ps) := rfl

theorem splitNl_ne_nil (l : List Char) : splitNl l ≠ [] := by
  cases l with
  | nil => simp [splitNl]
  | cons c cs =>
    simp only [splitNl]
    cases h : splitNl cs with
    | nil => simp
    | cons p ps =>
      by_cases hc : c = '\n' <;> simp [hc]

theorem splitNl_cons_nl (cs : List Char) : splitNl ('\n' :: cs) = [] :: splitNl cs := by
  cases h : splitNl cs with
  | nil => exact absurd h (splitNl_ne_nil cs)
  | cons p ps => simp [splitNl, h]

theorem splitNl_cons_ne {c : Char} {cs p : List Char} {ps : List (List Char)}
    (hc : c ≠ '\n') (h : splitNl cs = p :: ps) :
    splitNl (c :: cs) = (c :: p) :: ps := by
  simp [splitNl, h, hc]

theorem joinNl_splitNl (l : List Char) : joinNl (splitNl l) = l := by
  induction l with
  | nil => rfl
  | cons c cs ih =>
    cases h : splitNl cs with
    | nil => exact absurd h (splitNl_ne_nil cs)
    | cons p ps =>
      rw [h] at ih
      by_cases hc : c = '\n'
      · subst hc
        rw [splitNl_cons_nl, h, joinNl_cons_cons]
        simpa using ih
      · rw [splitNl_cons_ne hc h]
        cases ps with
        | nil =>
          rw [joinNl_single]
          rw [joinNl_single] at ih
          rw [ih]
        | cons q qs =>
          rw [joinNl_cons_cons]
          rw [joinNl_cons_cons] at ih
          simpa using congrArg (c :: ·) ih

theorem not_nl_mem_splitNl {l p : List Char} (hp : p ∈ splitNl l) : '\n' ∉ p := by
  induction l generalizing p with
  | nil =>
    simp [splitNl] at hp
    simp [hp]
  | cons c cs ih =>
    cases h : splitNl cs with
    | nil => exact absurd h (splitNl_ne_nil cs)
    | cons q qs =>
      by_cases hc : c = '\n'
      · subst hc
        rw [splitNl_cons_nl, h] at hp
        rcases List.mem_cons.mp hp with rfl | hp
        · simp
        · exact ih (by rw [h]; exact hp)
      · rw [splitNl_cons_ne hc h] at hp
        rcases List.mem_cons.mp hp with rfl | hp
        · intro hmem
          rcases List.mem_cons.mp hmem with h1 | h1
          · exact hc h1.symm
          · exact ih (by rw [h]; exact List.mem_cons_self q qs) h1
        · exact ih (by rw [h]; exact List.mem_cons_of_mem q hp)

theorem splitNl_of_not_mem {p : List Char} (h : '\n' ∉ p) : splitNl p = [p] := by
  induction p with
  | nil => rfl
  | cons c cs ih =>
    have hc : c ≠ '\n' := fun e => h (e ▸ List.mem_cons_self c cs)
    have hcs : '\n' ∉ cs := fun e => h (List.mem_cons_of_mem c e)
    rw [splitNl_cons_ne hc (ih hcs)]

theorem splitNl_append_nl {p : List Char} (l : List Char) (h : '\n' ∉ p) :
    splitNl (p ++ '\n' :: l) = p :: splitNl l := by
  induction p with
  | nil =>
    simp only [List.nil_append]
    rw [splitNl_cons_nl]
  | cons c cs ih =>
    have hc : c ≠ '\n' := fun e => h (e ▸ List.mem_cons_self c cs)
    have hcs : '\n' ∉ cs := fun e => h (List.mem_cons_of_mem c e)
    cases hsp : splitNl (cs ++ '\n' :: l) with
    | nil => exact absurd hsp (splitNl_ne_nil _)
    | cons q qs =>
      have := ih hcs
      rw [hsp] at this
      obtain ⟨rfl, rfl⟩ : q = cs ∧ qs = splitNl l := by
        injection this with h1 h2
        exact ⟨h1, h2⟩
      rw [List.cons_append, splitNl_cons_ne hc hsp]

theorem splitNl_joinNl {ps : List (List Char)} (h1 : ps ≠ [])
    (h2 : ∀ p ∈ ps, '\n' ∉ p) : splitNl (joinNl ps) = ps := by
  induction ps with
  | nil => exact absurd rfl h1
  | cons p ps ih =>
    cases ps with
    | nil =>
      rw [joinNl_single]
      exact splitNl_of_not_mem (h2 p (List.mem_cons_self p []))
    | cons q qs =>
      rw [joinNl_cons_cons]
      rw [splitNl_append_nl _ (h2 p (List.mem_cons_self p _))]
      rw [ih (by simp) (fun r hr => h2 r (List.mem_cons_of_mem p hr))]

theorem pyStrip_subset {l : List Char} : pyStrip l ⊆ l := by
  intro c hc
  simp only [pyStrip, List.mem_reverse] at hc
  have h1 := List.dropWhile_subset (l := (l.dropWhile isPySpace).reverse) isPySpace hc
  rw [List.mem_reverse] at h1
  exact List.dropWhile_subset isPySpace h1

theorem dropWhile_eq_self_of_head {p : Char → Bool} {l : List Char}
    (h : ∀ c, l.head? = some c → p c = false) : l.dropWhile p = l := by
  cases l with
  | nil => rfl
  | cons a l' => exact List.dropWhile_cons_of_neg (by simp [h a rfl])

theorem pyStrip_head?_not_space {l : List Char} {c : Char}
    (h : (pyStrip l).head? = some c) : isPySpace c = false := by
  set x := l.dropWhile isPySpace with hx
  have hsplit : x.reverse.takeWhile isPySpace ++ x.reverse.dropWhile isPySpace = x.reverse :=
    List.takeWhile_append_dropWhile isPySpace x.reverse
  have hx2 : x = (x.reverse.dropWhile isPySpace).reverse ++ (x.reverse.takeWhile isPySpace).reverse := by
    conv_lhs => rw [← List.reverse_reverse x, ← hsplit]
    rw [List.reverse_append]
  have hpy : pyStrip l = (x.reverse.dropWhile isPySpace).reverse := rfl
  rw [hpy] at h
  have hxhead : x.head? = some c := by
    rw [hx2, List.head?_append, h]
    rfl
  have h3 := List.head?_dropWhile_not isPySpace l
  rw [← hx, hxhead] at h3
  simpa using h3

theorem pyStrip_getLast?_not_space {l : List Char} {c : Char}
    (h : (pyStrip l).getLast? = some c) : isPySpace c = false := by
  have hpy : pyStrip l = ((l.dropWhile isPySpace).reverse.dropWhile isPySpace).reverse := rfl
  rw [hpy, List.getLast?_reverse] at h
  have h3 := List.head?_dropWhile_not isPySpace (l.dropWhile isPySpace).reverse
  rw [h] at h3
  simpa using h3

theorem pyStrip_eq_self {l : List Char}
    (h1 : ∀ c, l.head? = some c → isPySpace c = false)
    (h2 : ∀ c, l.getLast? = some c → isPySpace c = false) : pyStrip l = l := by
  have hd : l.dropWhile isPySpace = l := dropWhile_eq_self_of_head h1
  have hr : l.reverse.dropWhile isPySpace = l.reverse := by
    apply dropWhile_eq_self_of_head
    intro c hc
    rw [List.head?_reverse] at hc
    exact h2 c hc
  simp only [pyStrip, hd, hr, List.reverse_reverse]

theorem pyStrip_idem (l : List Char) : pyStrip (pyStrip l) = pyStrip l :=
  pyStrip_eq_self (fun _ hc => pyStrip_head?_not_space hc)
    (fun _ hc => pyStrip_getLast?_not_space hc)

theorem pyStrip_cons_of_not_space {c : Char} {q : List Char}
    (h : isPySpace c = false) : ∃ r, pyStrip (c :: q) = c :: r := by
  have hnc : ¬ isPySpace c = true := by simp [h]
  have hd : (c :: q).dropWhile isPySpace = c :: q := List.dropWhile_cons_of_neg hnc
  by_cases he : (q.reverse.dropWhile isPySpace).isEmpty = true
  · refine ⟨[], ?_⟩
    simp only [pyStrip, hd, List.reverse_cons, List.dropWhile_append, he, if_true]
    rw [List.dropWhile_cons_of_neg hnc]
    rfl
  · refine ⟨(q.reverse.dropWhile isPySpace).reverse, ?_⟩
    simp only [pyStrip, hd, List.reverse_cons, List.dropWhile_append, he, Bool.false_eq_true,
      if_false]
    rw [List.reverse_append]
    rfl

theorem getLast?_pyStrip_of_not_space {q : List Char} {d : Char}
    (hq : q.getLast? = some d) (hd : isPySpace d = false) :
    (pyStrip q).getLast? = some d := by
  obtain ⟨ys, rfl⟩ := List.getLast?_eq_some_iff.mp hq
  have hnd : ¬ isPySpace d = true := by simp [hd]
  have hx : ∃ w, (ys ++ [d]).dropWhile isPySpace = w ++ [d] := by
    rw [List.dropWhile_append]
    by_cases he : (ys.dropWhile isPySpace).isEmpty = true
    · refine ⟨[], ?_⟩
      simp [he, List.dropWhile_cons_of_neg hnd]
    · exact ⟨ys.dropWhile isPySpace, by simp [he]⟩
  obtain ⟨w, hw⟩ := hx
  have hpy : pyStrip (ys ++ [d]) = ((w ++ [d]).reverse.dropWhile isPySpace).reverse := by
    simp only [pyStrip, hw]
  have hrev : (w ++ [d]).reverse = d :: w.reverse := by simp
  rw [hpy, hrev, List.dropWhile_cons_of_neg hnd, List.getLast?_reverse]
  rfl

theorem splitNl_getLast {l : List Char} {d : Char}
    (h : l.getLast? = some d) (hd : d ≠ '\n') :
    ∃ q, (splitNl l).getLast? = some q ∧ q.getLast? = some d := by
  induction l with
  | nil => simp at h
  | cons a l' ih =>
    cases l' with
    | nil =>
      simp at h
      subst h
      refine ⟨[a], ?_, by simp⟩
      rw [splitNl_of_not_mem (by simp only [List.mem_singleton]; exact fun e => hd e.symm)]
      simp
    | cons b l'' =>
      rw [List.getLast?_cons_cons] at h
      obtain ⟨q, hq1, hq2⟩ := ih h
      cases hsp : splitNl (b :: l'') with
      | nil => exact absurd hsp (splitNl_ne_nil _)
      | cons p ps =>
        rw [hsp] at hq1
        by_cases ha : a = '\n'
        · subst ha
          refine ⟨q, ?_, hq2⟩
          rw [splitNl_cons_nl, hsp, List.getLast?_cons_cons]
          exact hq1
        · rw [splitNl_cons_ne ha hsp]
          cases ps with
          | nil =>
            have hqp : q = p := by simpa using hq1.symm
            subst hqp
            refine ⟨a :: q, by simp, ?_⟩
            obtain ⟨ys, rfl⟩ := List.getLast?_eq_some_iff.mp hq2
            exact List.getLast?_eq_some_iff.mpr ⟨a :: ys, rfl⟩
          | cons r rs =>
            refine ⟨q, ?_, hq2⟩
            rw [List.getLast?_cons_cons]
            rw [List.getLast?_cons_cons] at hq1
            exact hq1

theorem joinNl_getLast {ps : List (List Char)} {q : List Char}
    (h : ps.getLast? = some q) (hq : q ≠ []) :
    (joinNl ps).getLast? = q.getLast? := by
  induction ps with
  | nil => simp at h
  | cons p ps ih =>
    cases ps with
    | nil =>
      simp at h
      subst h
      rw [joinNl_single]
    | cons r rs =>
      rw [List.getLast?_cons_cons] at h
      have hz := ih h
      obtain ⟨e, he⟩ : ∃ e, q.getLast? = some e := by
        cases hql : q.getLast? with
        | none => exact absurd (List.getLast?_eq_none_iff.mp hql) hq
        | some e => exact ⟨e, rfl⟩
      rw [joinNl_cons_cons, List.getLast?_append]
      cases hjz : joinNl (r :: rs) with
      | nil =>
        rw [hjz] at hz
        rw [he] at hz
        simp at hz
      | cons y ys =>
        rw [hjz] at hz
        rw [List.getLast?_cons_cons, hz, he]
        rfl

theorem joinNl_head {c : Char} {p : List Char} {ps : List (List Char)} :
    (joinNl ((c :: p) :: ps)).head? = some c := by
  cases ps with
  | nil => rw [joinNl_single]; rfl
  | cons r rs =>
    rw [joinNl_cons_cons]
    rfl

theorem normalizeList_eq_nil_of_pyStrip_nil {l : List Char} (h : pyStrip l = []) :
    normalizeList l = [] := by
  simp only [normalizeList, h]
  rfl

theorem normalizeList_head?_not_space {l : List Char} {c : Char}
    (h : (normalizeList l).head? = some c) : isPySpace c = false := by
  cases ht : pyStrip l with
  | nil =>
    rw [normalizeList_eq_nil_of_pyStrip_nil ht] at h
    simp at h
  | cons c0 t0 =>
    have hc0 : isPySpace c0 = false := pyStrip_head?_not_space (by rw [ht]; rfl)
    have hc0n : c0 ≠ '\n' := by
      intro e
      rw [e] at hc0
      simp [isPySpace] at hc0
    cases hsp : splitNl t0 with
    | nil => exact absurd hsp (splitNl_ne_nil _)
    | cons q qs =>
      have hsplit : splitNl (pyStrip l) = (c0 :: q) :: qs := by
        rw [ht]
        exact splitNl_cons_ne hc0n hsp
      obtain ⟨r, hr⟩ := pyStrip_cons_of_not_space (q := q) hc0
      have hnl : normalizeList l = joinNl ((c0 :: r) :: qs.map pyStrip) := by
        simp only [normalizeList, hsplit, List.map_cons, hr]
      rw [hnl, joinNl_head] at h
      injection h with h2
      rw [← h2]
      exact hc0

theorem normalizeList_getLast?_not_space {l : List Char} {d : Char}
    (h : (normalizeList l).getLast? = some d) : isPySpace d = false := by
  cases ht : pyStrip l with
  | nil =>
    rw [normalizeList_eq_nil_of_pyStrip_nil ht] at h
    simp at h
  | cons c0 t0 =>
    obtain ⟨d0, hd0⟩ : ∃ d0, (pyStrip l).getLast? = some d0 := by
      rw [ht]
      cases hgl : (c0 :: t0).getLast? with
      | none => simp at hgl
      | some e => exact ⟨e, rfl⟩
    have hd0s : isPySpace d0 = false := pyStrip_getLast?_not_space hd0
    have hd0n : d0 ≠ '\n' := by
      intro e
      rw [e] at hd0s
      simp [isPySpace] at hd0s
    obtain ⟨q, hq1, hq2⟩ := splitNl_getLast hd0 hd0n
    have hmap : ((splitNl (pyStrip l)).map pyStrip).getLast? = some (pyStrip q) := by
      rw [List.getLast?_map, hq1]
      rfl
    have hql : (pyStrip q).getLast? = some d0 := getLast?_pyStrip_of_not_space hq2 hd0s
    have hqne : pyStrip q ≠ [] := by
      intro e
      rw [e] at hql
      simp at hql
    have hjoin : (normalizeList l).getLast? = (pyStrip q).getLast? := by
      simp only [normalizeList]
      exact joinNl_getLast hmap hqne
    rw [hjoin, hql] at h
    injection h with h2
    rw [← h2]
    exact hd0s

theorem pyStrip_normalizeList (l : List Char) :
    pyStrip (normalizeList l) = normalizeList l :=
  pyStrip_eq_self (fun _ hc => normalizeList_head?_not_space hc)
    (fun _ hc => normalizeList_getLast?_not_space hc)

theorem splitNl_normalizeList (l : List Char) :
    splitNl (normalizeList l) = (splitNl (pyStrip l)).map pyStrip := by
  simp only [normalizeList]
  apply splitNl_joinNl
  · intro he
    exact splitNl_ne_nil (pyStrip l) (List.map_eq_nil_iff.mp he)
  · intro p hp
    obtain ⟨p0, hp0, rfl⟩ := List.mem_map.mp hp
    intro hmem
    exact not_nl_mem_splitNl hp0 (pyStrip_subset hmem)

theorem map_pyStrip_idem (ps : List (List Char)) :
    (ps.map pyStrip).map pyStrip = ps.map pyStrip := by
  rw [List.map_map]
  exact List.map_congr_left (fun a _ => pyStrip_idem a)

theorem normalizeList_idem (l : List Char) :
    normalizeList (normalizeList l) = normalizeList l := by
  have h1 : normalizeList (normalizeList l)
      = joinNl ((splitNl (pyStrip (normalizeList l))).map pyStrip) := rfl
  rw [h1, pyStrip_normalizeList, splitNl_normalizeList, map_pyStrip_idem]
  rfl

/-- C6: The output-normalization function (trim the whole text, strip each
line, rejoin with newlines) is idempotent: applying normalization to an
already-normalized string returns the same string. -/
theorem normalize_idempotent (s : String) :
    normalizeOutput (normalizeOutput s) = normalizeOutput s := by
  simp only [normalizeOutput]
  exact congrArg String.mk (normalizeList_idem s.data)

theorem dirExists_iff {st : DirState} {p : List String} :
    dirExists st p = true ↔ p ∈ st := by
  simp [dirExists, List.contains_iff_exists_mem_beq]

theorem mem_makedirs_self {st : DirState} {p : List String} (hp : p ≠ []) :
    p ∈ makedirs st p := by
  by_cases h : p ∈ st
  · exact List.mem_append_left _ h
  · apply List.mem_append_right
    apply List.mem_filter.mpr
    refine ⟨?_, ?_⟩
    · apply List.mem_map.mpr
      refine ⟨p.length - 1, ?_, ?_⟩
      · have : 0 < p.length := List.length_pos.mpr hp
        simp [List.mem_range]
        omega
      · have h1 : p.length - 1 + 1 = p.length := by
          have : 0 < p.length := List.length_pos.mpr hp
          omega
        rw [h1]
        exact List.take_length p
    · have hcf : st.contains p = false := by
        rw [← Bool.not_eq_true]
        intro hc
        exact h (dirExists_iff.mp hc)
      rw [hcf]
      rfl

theorem mem_of_mem_makedirs {st : DirState} {p q : List String}
    (h : q ∈ makedirs st p) : q ∈ st ∨ ∃ i < p.length, q = p.take (i + 1) := by
  rcases List.mem_append.mp h with h1 | h1
  · exact Or.inl h1
  · right
    obtain ⟨i, hi, rfl⟩ := List.mem_map.mp (List.mem_filter.mp h1).1
    exact ⟨i, List.mem_range.mp hi, rfl⟩

/-- C3: For every (platform, contest, problem) triple with problem set, the
cache-existence check returns true iff the case directory already exists,
and after the call the directory exists in all cases (created when
absent); when problem is unset only the contest-level directory is
ensured. -/
theorem check_cache_semantics (st : DirState) (site contest problem : String) :
    ((check_cache st site contest (some problem)).1 = true ↔
      [site, check_cache_contest_component site contest, problem] ∈ st)
  ∧ [site, check_cache_contest_component site contest, problem]
      ∈ (check_cache st site contest (some problem)).2
  ∧ (check_cache st site contest none).1 = false
  ∧ [site, contest] ∈ (check_cache st site contest none).2
  ∧ ((check_cache st site contest none).2.all
      (fun d => st.contains d || d == [site] || d == [site, contest])) = true := by
  refine ⟨?_, ?_, ?_, ?_, ?_⟩
  · by_cases h : dirExists st [site, check_cache_contest_component site contest, problem] = true
    · simp [check_cache, h]
      exact dirExists_iff.mp h
    · rw [Bool.not_eq_true] at h
      simp [check_cache, h]
      intro hmem
      exact absurd (dirExists_iff.mpr hmem) (by simp [h])
  · by_cases h : dirExists st [site, check_cache_contest_component site contest, problem] = true
    · simp [check_cache, h]
      exact dirExists_iff.mp h
    · rw [Bool.not_eq_true] at h
      simp [check_cache, h]
      exact mem_makedirs_self (by simp)
  · by_cases h : dirExists st [site, contest] = true
    · simp [check_cache, h]
    · rw [Bool.not_eq_true] at h
      simp [check_cache, h]
  · by_cases h : dirExists st [site, contest] = true
    · simp [check_cache, h]
      exact dirExists_iff.mp h
    · rw [Bool.not_eq_true] at h
      simp [check_cache, h]
      exact mem_makedirs_self (by simp)
  · rw [List.all_eq_true]
    intro d hd
    by_cases h : dirExists st [site, contest] = true
    · rw [check_cache] at hd
      simp only [h, if_true] at hd
      simp only [Bool.or_eq_true]
      exact Or.inl (Or.inl (by rw [← dirExists_iff] at hd; exact hd))
    · rw [Bool.not_eq_true] at h
      rw [check_cache] at hd
      simp only [h, Bool.false_eq_true, if_false] at hd
      rcases mem_of_mem_makedirs hd with h1 | ⟨i, hi, rfl⟩
      · simp only [Bool.or_eq_true]
        exact Or.inl (Or.inl (by rw [← dirExists_iff] at h1; exact h1))
      · have hi2 : i < 2 := by simpa using hi
        rcases i with _ | _ | i
        · simp
        · simp
        · omega

/-- C7: For every single-problem acquisition request, if the cache check
reports a hit and force-refresh is not set, the orchestrator terminates
successfully with a found-in-cache outcome without invoking the adapter's
scrape operation; otherwise it delegates to the adapter's scrapeProblem. -/
theorem download_problem_short_circuit (st : DirState) (site contest problem : String)
    (force : Bool) :
    ((download_problem_testcases st site contest problem force).1 = AcqOutcome.foundInCache
      ↔ (force = false ∧ (check_cache st site contest (some problem)).1 = true))
  ∧ ((download_problem_testcases st site contest problem force).1 = AcqOutcome.scraped
      ↔ (force = true ∨ (check_cache st site contest (some problem)).1 = false)) := by
  cases force <;> cases h : (check_cache st site contest (some problem)).1 <;>
    simp [download_problem_testcases, h]

/-- C8: For the Spoj platform, at every call site that computes a case path
(cache check, store, interrupt cleanup, and solution-run lookup), the
contest component is normalized to the empty string; no other platform's
paths are affected. -/
theorem spoj_contest_component_normalized (site contest : String) :
    (site = "spoj" →
      check_cache_contest_component site contest = ""
      ∧ store_files_contest_component site contest = ""
      ∧ handle_kbd_interrupt_contest_component site contest = ""
      ∧ run_solution_contest_component site contest = "")
  ∧ (site ≠ "spoj" →
      check_cache_contest_component site contest = contest
      ∧ store_files_contest_component site contest = contest
      ∧ handle_kbd_interrupt_contest_component site contest = contest
      ∧ run_solution_contest_component site contest = contest) := by
  constructor
  · intro h
    subst h
    exact ⟨rfl, rfl, rfl, rfl⟩
  · intro h
    have hb : (site == "spoj") = false := beq_eq_false_iff_ne.mpr h
    simp [check_cache_contest_component, store_files_contest_component,
      handle_kbd_interrupt_contest_component, run_solution_contest_component, hb]

/-- Witness for C8: SPOJ paths lose the contest segment, Codeforces paths
keep it. -/
theorem spoj_contest_component_normalized_witness :
    check_cache_contest_component "spoj" "c1" = ""
  ∧ run_solution_contest_component "codeforces" "c1" = "c1" :=
  ⟨((spoj_contest_component_normalized "spoj" "c1").1 rfl).1,
   ((spoj_contest_component_normalized "codeforces" "c1").2 (by decide)).2.2.2⟩

example :
    store_files [] ["i0"] ["o0"] none =
      [(FName.caseIn 0, "i0"), (FName.caseOut 0, "o0")] := by decide

example :
    store_files [(FName.caseIn 0, "i0"), (FName.caseOut 0, "o0")] ["i1"] ["o1"] none =
      [(FName.caseIn 0, "i0"), (FName.caseOut 0, "o0"),
       (FName.caseIn 1, "i1"), (FName.caseOut 1, "o1")] := by decide

/-! ### Lemmas about the file store -/

/-- Keys of the directory after writeFile. -/
theorem keysOf_writeFile (fs : FS) (k : FName) (c : String) :
    keysOf (writeFile fs k c) =
      if hasKey fs k then keysOf fs else keysOf fs ++ [k] := by
  by_cases h : hasKey fs k = true
  · rw [writeFile, if_pos h, if_pos h]
    rw [keysOf, keysOf, List.map_map]
    apply List.map_congr_left
    intro e _
    by_cases he : (e.1 == k) = true
    · simp only [Function.comp_apply, he, if_true]
      exact (beq_iff_eq.mp he).symm
    · simp only [Function.comp_apply, he, Bool.false_eq_true, if_false]
  · rw [writeFile, if_neg h, if_neg h]
    rw [keysOf, keysOf, List.map_append]
    rfl

theorem hasKey_iff {fs : FS} {k : FName} :
    hasKey fs k = true ↔ ∃ e ∈ fs, e.1 = k := by
  rw [hasKey, List.any_eq_true]
  constructor
  · rintro ⟨e, he, hbeq⟩
    exact ⟨e, he, beq_iff_eq.mp hbeq⟩
  · rintro ⟨e, he, heq⟩
    exact ⟨e, he, beq_iff_eq.mpr heq⟩

theorem hasKey_of_mem {fs : FS} {k : FName} {c : String} (h : (k, c) ∈ fs) :
    hasKey fs k = true :=
  hasKey_iff.mpr ⟨(k, c), h, rfl⟩

theorem mem_writeFile_of_ne {fs : FS} {k k2 : FName} {c c2 : String}
    (hne : k2 ≠ k) : ((k2, c2) ∈ writeFile fs k c ↔ (k2, c2) ∈ fs) := by
  by_cases h : hasKey fs k = true
  · rw [writeFile, if_pos h]
    constructor
    · intro hm
      obtain ⟨e, he, hfe⟩ := List.mem_map.mp hm
      by_cases h1 : (e.1 == k) = true
      · rw [if_pos h1] at hfe
        injection hfe with h2 h3
        exact absurd h2.symm hne
      · rw [if_neg h1] at hfe
        rw [hfe] at he
        exact he
    · intro hm
      apply List.mem_map.mpr
      refine ⟨(k2, c2), hm, ?_⟩
      have : ((k2, c2).1 == k) = false := beq_eq_false_iff_ne.mpr hne
      rw [if_neg (by simp [this])]
  · rw [writeFile, if_neg h]
    rw [List.mem_append]
    constructor
    · rintro (hm | hm)
      · exact hm
      · exfalso
        rcases List.mem_singleton.mp hm with h2
        injection h2 with h3 h4
        exact hne h3
    · exact fun hm => Or.inl hm

theorem mem_writeFile_self {fs : FS} {k : FName} {c : String}
    (h : hasKey fs k = false) : (k, c) ∈ writeFile fs k c := by
  rw [writeFile, if_neg (by simp [h])]
  exact List.mem_append_right _ (List.mem_singleton.mpr rfl)

theorem hasKey_writeFile_iff {fs : FS} {k k2 : FName} {c : String} :
    hasKey (writeFile fs k c) k2 = true ↔ (hasKey fs k2 = true ∨ k2 = k) := by
  have hkeys : hasKey (writeFile fs k c) k2 = true ↔ k2 ∈ keysOf (writeFile fs k c) := by
    rw [hasKey_iff, keysOf]
    constructor
    · rintro ⟨e, he, rfl⟩
      exact List.mem_map.mpr ⟨e, he, rfl⟩
    · intro hm
      obtain ⟨e, he, rfl⟩ := List.mem_map.mp hm
      exact ⟨e, he, rfl⟩
  have hkeys0 : hasKey fs k2 = true ↔ k2 ∈ keysOf fs := by
    rw [hasKey_iff, keysOf]
    constructor
    · rintro ⟨e, he, rfl⟩
      exact List.mem_map.mpr ⟨e, he, rfl⟩
    · intro hm
      obtain ⟨e, he, rfl⟩ := List.mem_map.mp hm
      exact ⟨e, he, rfl⟩
  rw [hkeys, hkeys0, keysOf_writeFile]
  by_cases h : hasKey fs k = true
  · rw [if_pos h]
    constructor
    · exact fun hm => Or.inl hm
    · rintro (hm | rfl)
      · exact hm
      · exact hkeys0.mp h
  · rw [if_neg h]
    rw [List.mem_append, List.mem_singleton]

theorem mem_keysOf_iff {fs : FS} {k : FName} :
    k ∈ keysOf fs ↔ hasKey fs k = true := by
  rw [hasKey_iff, keysOf]
  constructor
  · intro hm
    obtain ⟨e, he, rfl⟩ := List.mem_map.mp hm
    exact ⟨e, he, rfl⟩
  · rintro ⟨e, he, rfl⟩
    exact List.mem_map.mpr ⟨e, he, rfl⟩

theorem keysNodup_writeFile {fs : FS} {k : FName} {c : String}
    (h : KeysNodup fs) : KeysNodup (writeFile fs k c) := by
  rw [KeysNodup, keysOf_writeFile]
  by_cases hk : hasKey fs k = true
  · rw [if_pos hk]
    exact h
  · rw [if_neg hk]
    apply List.Nodup.append h (List.nodup_singleton k)
    intro x hx hxk
    rw [List.mem_singleton] at hxk
    subst hxk
    exact hk (mem_keysOf_iff.mp hx)

theorem count_eq_of_canonical {fs : FS} {n : Nat} (hnd : KeysNodup fs)
    (hout : ∀ i, hasKey fs (FName.caseOut i) = true ↔ i < n) :
    getTestCasesCount fs = n := by
  have hlen : getTestCasesCount fs
      = ((fs.filter (fun e => endsWithA e.1)).map Prod.fst).length := by
    rw [getTestCasesCount, List.length_map]
  have hnd1 : ((fs.filter (fun e => endsWithA e.1)).map Prod.fst).Nodup := by
    apply List.Nodup.sublist _ hnd
    exact (List.filter_sublist fs).map Prod.fst
  have hnd2 : ((List.range n).map FName.caseOut).Nodup :=
    (List.nodup_range n).map (fun a b h => FName.caseOut.inj h)
  have hmem : ∀ k, k ∈ (fs.filter (fun e => endsWithA e.1)).map Prod.fst ↔
      k ∈ (List.range n).map FName.caseOut := by
    intro k
    constructor
    · intro hm
      obtain ⟨e, he, rfl⟩ := List.mem_map.mp hm
      obtain ⟨hefs, hea⟩ := List.mem_filter.mp he
      cases hk : e.1 with
      | caseIn i =>
        rw [hk] at hea
        simp [endsWithA] at hea
      | statementFile =>
        rw [hk] at hea
        simp [endsWithA] at hea
      | caseOut i =>
        have hik : hasKey fs (FName.caseOut i) = true :=
          hasKey_iff.mpr ⟨e, hefs, hk⟩
        have hin : i < n := (hout i).mp hik
        exact List.mem_map.mpr ⟨i, List.mem_range.mpr hin, rfl⟩
    · intro hm
      obtain ⟨i, hi, rfl⟩ := List.mem_map.mp hm
      have hik : hasKey fs (FName.caseOut i) = true :=
        (hout i).mpr (List.mem_range.mp hi)
      obtain ⟨e, he, hek⟩ := hasKey_iff.mp hik
      apply List.mem_map.mpr
      refine ⟨e, List.mem_filter.mpr ⟨he, ?_⟩, hek⟩
      rw [hek]
      rfl
  have hperm := (List.perm_ext_iff_of_nodup hnd1 hnd2).mpr hmem
  rw [hlen, hperm.length_eq, List.length_map, List.length_range]

theorem hasKey_writeEnum {mk : Nat → FName} :
    ∀ (cs : List String) (base : Nat) (fs : FS) (k : FName),
    (hasKey (writeEnum mk base fs cs) k = true ↔
      hasKey fs k = true ∨ ∃ i, i < cs.length ∧ k = mk (base + i)) := by
  intro cs
  induction cs with
  | nil =>
    intro base fs k
    simp [writeEnum]
  | cons c cs ih =>
    intro base fs k
    rw [writeEnum, ih]
    rw [hasKey_writeFile_iff]
    constructor
    · rintro ((h1 | h1) | ⟨i, hi, rfl⟩)
      · exact Or.inl h1
      · exact Or.inr ⟨0, by simp, by rw [h1, Nat.add_zero]⟩
      · exact Or.inr ⟨i + 1, Nat.succ_lt_succ hi, congrArg mk (by omega)⟩
    · rintro (h1 | ⟨i, hi, rfl⟩)
      · exact Or.inl (Or.inl h1)
      · cases i with
        | zero => exact Or.inl (Or.inr (by rw [Nat.add_zero]))
        | succ j =>
          have hj : j < cs.length := Nat.lt_of_succ_lt_succ hi
          exact Or.inr ⟨j, hj, congrArg mk (by omega)⟩

theorem mem_writeEnum_of_ne {mk : Nat → FName} :
    ∀ (cs : List String) (base : Nat) (fs : FS) (k : FName) (c2 : String),
    (∀ i, i < cs.length → k ≠ mk (base + i)) →
    ((k, c2) ∈ writeEnum mk base fs cs ↔ (k, c2) ∈ fs) := by
  intro cs
  induction cs with
  | nil =>
    intro base fs k c2 _
    rw [writeEnum]
  | cons c cs ih =>
    intro base fs k c2 hne
    rw [writeEnum]
    rw [ih (base + 1) _ k c2 (fun i hi => by
      have h2 := hne (i + 1) (Nat.succ_lt_succ hi)
      intro he
      exact h2 (he.trans (congrArg mk (by omega))))]
    exact mem_writeFile_of_ne (by
      have h2 := hne 0 (Nat.succ_pos _)
      rw [Nat.add_zero] at h2
      exact h2)

theorem mem_writeEnum_self {mk : Nat → FName}
    (hinj : ∀ a b, mk a = mk b → a = b) :
    ∀ (cs : List String) (base : Nat) (fs : FS),
    (∀ i, i < cs.length → hasKey fs (mk (base + i)) = false) →
    ∀ i (h : i < cs.length),
      (mk (base + i), cs.get ⟨i, h⟩) ∈ writeEnum mk base fs cs := by
  intro cs
  induction cs with
  | nil =>
    intro base fs _ i h
    simp at h
  | cons c cs ih =>
    intro base fs hfresh i h
    cases i with
    | zero =>
      rw [writeEnum]
      rw [mem_writeEnum_of_ne cs (base + 1) _ _ _ (fun j hj => by
        intro he
        have hj2 := hinj _ _ ((congrArg mk (Nat.add_zero base).symm).symm.trans he)
        omega)]
      rw [Nat.add_zero]
      exact mem_writeFile_self (by
        have h2 := hfresh 0 (Nat.succ_pos _)
        rw [Nat.add_zero] at h2
        exact h2)
    | succ j =>
      rw [writeEnum]
      have hj : j < cs.length := Nat.lt_of_succ_lt_succ h
      have harg : base + (j + 1) = base + 1 + j := by omega
      have hkey : (mk (base + (j + 1)), (c :: cs).get ⟨j + 1, h⟩)
          = (mk (base + 1 + j), cs.get ⟨j, hj⟩) := by
        rw [harg]
        rfl
      rw [hkey]
      apply ih (base + 1) _ (fun i hi => ?_) j hj
      have h0 : hasKey fs (mk (base + 1 + i)) = false := by
        have h2 := hfresh (i + 1) (Nat.succ_lt_succ hi)
        have h3 : base + (i + 1) = base + 1 + i := by omega
        rw [h3] at h2
        exact h2
      rw [← Bool.not_eq_true]
      rw [hasKey_writeFile_iff]
      rintro (hc | hc)
      · rw [h0] at hc
        exact Bool.false_ne_true hc
      · have h4 := hinj _ _ hc
        omega

theorem keysNodup_writeEnum {mk : Nat → FName} :
    ∀ (cs : List String) (base : Nat) (fs : FS),
    KeysNodup fs → KeysNodup (writeEnum mk base fs cs) := by
  intro cs
  induction cs with
  | nil =>
    intro base fs h
    rw [writeEnum]
    exact h
  | cons c cs ih =>
    intro base fs h
    rw [writeEnum]
    exact ih (base + 1) _ (keysNodup_writeFile h)

theorem mem_writeStatement_of_ne {fs : FS} {st : Option String} {k : FName}
    {c : String} (hk : k ≠ FName.statementFile) :
    ((k, c) ∈ writeStatement fs st ↔ (k, c) ∈ fs) := by
  cases st with
  | none => rw [writeStatement]
  | some s =>
    rw [writeStatement]
    by_cases hs : s = ""
    · rw [if_pos hs]
    · rw [if_neg hs]
      exact mem_writeFile_of_ne hk

theorem hasKey_writeStatement_of_ne {fs : FS} {st : Option String} {k : FName}
    (hk : k ≠ FName.statementFile) :
    hasKey (writeStatement fs st) k = hasKey fs k := by
  cases st with
  | none => rw [writeStatement]
  | some s =>
    rw [writeStatement]
    by_cases hs : s = ""
    · rw [if_pos hs]
    · rw [if_neg hs]
      cases h : hasKey fs k with
      | true => exact hasKey_writeFile_iff.mpr (Or.inl h)
      | false =>
        rw [← Bool.not_eq_true]
        rw [hasKey_writeFile_iff]
        rintro (hc | hc)
        · rw [h] at hc
          exact Bool.false_ne_true hc
        · exact hk hc

theorem keysNodup_writeStatement {fs : FS} {st : Option String}
    (h : KeysNodup fs) : KeysNodup (writeStatement fs st) := by
  cases st with
  | none => rw [writeStatement]; exact h
  | some s =>
    rw [writeStatement]
    by_cases hs : s = ""
    · rw [if_pos hs]; exact h
    · rw [if_neg hs]; exact keysNodup_writeFile h

theorem store_files_canonical {fs : FS} {n : Nat} {ins outs : List String}
    {st : Option String} (hC : CanonicalDir fs n)
    (hlen : ins.length = outs.length) :
    CanonicalDir (store_files fs ins outs st) (n + outs.length) := by
  obtain ⟨hnd, hout, hin⟩ := hC
  have hcnt : getTestCasesCount fs = n := count_eq_of_canonical hnd hout
  have hunfold0 : store_files fs ins outs st
      = writeStatement (writeEnum FName.caseOut (getTestCasesCount fs)
          (writeEnum FName.caseIn (getTestCasesCount fs) fs ins) outs) st := rfl
  rw [hcnt] at hunfold0
  refine ⟨?_, ?_, ?_⟩
  · rw [hunfold0]
    exact keysNodup_writeStatement
      (keysNodup_writeEnum _ _ _ (keysNodup_writeEnum _ _ _ hnd))
  · intro i
    rw [hunfold0]
    rw [hasKey_writeStatement_of_ne (fun h => FName.noConfusion h)]
    rw [hasKey_writeEnum]
    constructor
    · rintro (h1 | ⟨j, hj, hje⟩)
      · rw [hasKey_writeEnum] at h1
        rcases h1 with h2 | ⟨j, hj, hje⟩
        · have := (hout i).mp h2
          omega
        · exact absurd hje (fun h => FName.noConfusion h)
      · have : i = n + j := FName.caseOut.inj hje
        omega
    · intro hi
      by_cases h2 : i < n
      · refine Or.inl ?_
        rw [hasKey_writeEnum]
        exact Or.inl ((hout i).mpr h2)
      · refine Or.inr ⟨i - n, by omega, ?_⟩
        have h3 : n + (i - n) = i := by omega
        rw [h3]
  · intro i
    rw [hunfold0]
    rw [hasKey_writeStatement_of_ne (fun h => FName.noConfusion h)] at *
    rw [hasKey_writeEnum]
    rintro (h1 | ⟨j, hj, hje⟩)
    · rw [hasKey_writeEnum] at h1
      rcases h1 with h2 | ⟨j, hj, hje⟩
      · have := hin i h2
        omega
      · have : i = n + j := FName.caseIn.inj hje
        omega
    · exact absurd hje (fun h => FName.noConfusion h)

theorem mem_store_files_preserved {fs : FS} {n : Nat} {ins outs : List String}
    {st : Option String} (hcnt : getTestCasesCount fs = n) :
    (∀ i c, i < n → (FName.caseIn i, c) ∈ fs →
      (FName.caseIn i, c) ∈ store_files fs ins outs st)
    ∧ (∀ i c, i < n → (FName.caseOut i, c) ∈ fs →
      (FName.caseOut i, c) ∈ store_files fs ins outs st) := by
  have hunfold0 : store_files fs ins outs st
      = writeStatement (writeEnum FName.caseOut (getTestCasesCount fs)
          (writeEnum FName.caseIn (getTestCasesCount fs) fs ins) outs) st := rfl
  rw [hcnt] at hunfold0
  constructor
  · intro i c hi hmem
    rw [hunfold0]
    rw [mem_writeStatement_of_ne (fun h => FName.noConfusion h)]
    rw [mem_writeEnum_of_ne outs n _ _ _ (fun j _ h => FName.noConfusion h)]
    rw [mem_writeEnum_of_ne ins n _ _ _ (fun j _ h => by
      have := FName.caseIn.inj h
      omega)]
    exact hmem
  · intro i c hi hmem
    rw [hunfold0]
    rw [mem_writeStatement_of_ne (fun h => FName.noConfusion h)]
    rw [mem_writeEnum_of_ne outs n _ _ _ (fun j _ h => by
      have := FName.caseOut.inj h
      omega)]
    rw [mem_writeEnum_of_ne ins n _ _ _ (fun j _ h => FName.noConfusion h)]
    exact hmem

theorem mem_store_files_new {fs : FS} {n : Nat} {ins outs : List String}
    {st : Option String} (hcnt : getTestCasesCount fs = n)
    (hfreshIn : ∀ i, i < ins.length → hasKey fs (FName.caseIn (n + i)) = false)
    (hfreshOut : ∀ i, i < outs.length → hasKey fs (FName.caseOut (n + i)) = false) :
    (∀ i (h : i < ins.length),
      (FName.caseIn (n + i), ins.get ⟨i, h⟩) ∈ store_files fs ins outs st)
    ∧ (∀ i (h : i < outs.length),
      (FName.caseOut (n + i), outs.get ⟨i, h⟩) ∈ store_files fs ins outs st) := by
  have hunfold0 : store_files fs ins outs st
      = writeStatement (writeEnum FName.caseOut (getTestCasesCount fs)
          (writeEnum FName.caseIn (getTestCasesCount fs) fs ins) outs) st := rfl
  rw [hcnt] at hunfold0
  constructor
  · intro i h
    rw [hunfold0]
    rw [mem_writeStatement_of_ne (fun h2 => FName.noConfusion h2)]
    rw [mem_writeEnum_of_ne outs n _ _ _ (fun j _ h2 => FName.noConfusion h2)]
    exact mem_writeEnum_self (fun a b h2 => FName.caseIn.inj h2) ins n fs hfreshIn i h
  · intro i h
    rw [hunfold0]
    rw [mem_writeStatement_of_ne (fun h2 => FName.noConfusion h2)]
    have hfreshOut2 : ∀ i, i < outs.length →
        hasKey (writeEnum FName.caseIn n fs ins) (FName.caseOut (n + i)) = false := by
      intro j hj
      rw [← Bool.not_eq_true, hasKey_writeEnum]
      rintro (h2 | ⟨j2, _, hje⟩)
      · rw [hfreshOut j hj] at h2
        exact Bool.false_ne_true h2
      · exact FName.noConfusion hje
    exact mem_writeEnum_self (fun a b h2 => FName.caseOut.inj h2) outs n _ hfreshOut2 i h

/-- C2: For every cache path and every two successive calls to store_files
with disjoint new cases, the second call writes its inputs and outputs at
contiguous zero-based indices offset by the current case count, so indices
never overlap prior ones and no prior index is overwritten; the statement
file is written only when a statement is provided. -/
theorem store_files_append_only
    (fs0 : FS) (n0 : Nat) (in1 out1 in2 out2 : List String)
    (st1 st2 : Option String)
    (hC : CanonicalDir fs0 n0) (hlen1 : in1.length = out1.length) :
    getTestCasesCount (store_files fs0 in1 out1 st1) = n0 + out1.length
  ∧ (∀ i (h : i < in2.length),
      (FName.caseIn (n0 + out1.length + i), in2.get ⟨i, h⟩)
        ∈ store_files (store_files fs0 in1 out1 st1) in2 out2 st2)
  ∧ (∀ i (h : i < out2.length),
      (FName.caseOut (n0 + out1.length + i), out2.get ⟨i, h⟩)
        ∈ store_files (store_files fs0 in1 out1 st1) in2 out2 st2)
  ∧ (∀ i, n0 + out1.length ≤ i →
      hasKey (store_files fs0 in1 out1 st1) (FName.caseIn i) = false
      ∧ hasKey (store_files fs0 in1 out1 st1) (FName.caseOut i) = false)
  ∧ (∀ i c, (FName.caseIn i, c) ∈ store_files fs0 in1 out1 st1 →
      (FName.caseIn i, c) ∈ store_files (store_files fs0 in1 out1 st1) in2 out2 st2)
  ∧ (∀ i c, (FName.caseOut i, c) ∈ store_files fs0 in1 out1 st1 →
      (FName.caseOut i, c) ∈ store_files (store_files fs0 in1 out1 st1) in2 out2 st2)
  ∧ (st2 = none →
      ∀ c, ((FName.statementFile, c)
          ∈ store_files (store_files fs0 in1 out1 st1) in2 out2 st2
        ↔ (FName.statementFile, c) ∈ store_files fs0 in1 out1 st1)) := by
  have hC1 : CanonicalDir (store_files fs0 in1 out1 st1) (n0 + out1.length) :=
    store_files_canonical hC hlen1
  obtain ⟨hnd1, hout1, hin1⟩ := hC1
  have c1 : getTestCasesCount (store_files fs0 in1 out1 st1) = n0 + out1.length :=
    count_eq_of_canonical hnd1 hout1
  have hfreshAll : ∀ i, n0 + out1.length ≤ i →
      hasKey (store_files fs0 in1 out1 st1) (FName.caseIn i) = false
      ∧ hasKey (store_files fs0 in1 out1 st1) (FName.caseOut i) = false := by
    intro i hi
    constructor
    · rw [← Bool.not_eq_true]
      intro h
      have := hin1 i h
      omega
    · rw [← Bool.not_eq_true]
      intro h
      have := (hout1 i).mp h
      omega
  have hnew := @mem_store_files_new _ _ in2 out2 st2 c1
    (fun i hi => (hfreshAll (n0 + out1.length + i) (by omega)).1)
    (fun i hi => (hfreshAll (n0 + out1.length + i) (by omega)).2)
  have hpres := @mem_store_files_preserved _ _ in2 out2 st2 c1
  refine ⟨c1, hnew.1, hnew.2, hfreshAll, ?_, ?_, ?_⟩
  · intro i c hmem
    have hi : i < n0 + out1.length := hin1 i (hasKey_of_mem hmem)
    exact hpres.1 i c hi hmem
  · intro i c hmem
    have hi : i < n0 + out1.length := (hout1 i).mp (hasKey_of_mem hmem)
    exact hpres.2 i c hi hmem
  · intro hst c
    subst hst
    have h0 : store_files (store_files fs0 in1 out1 st1) in2 out2 none
        = writeEnum FName.caseOut (getTestCasesCount (store_files fs0 in1 out1 st1))
            (writeEnum FName.caseIn (getTestCasesCount (store_files fs0 in1 out1 st1))
              (store_files fs0 in1 out1 st1) in2) out2 := rfl
    rw [h0]
    rw [mem_writeEnum_of_ne out2 _ _ _ _ (fun j _ h => FName.noConfusion h)]
    rw [mem_writeEnum_of_ne in2 _ _ _ _ (fun j _ h => FName.noConfusion h)]

/-- Witness for C2: two successive stores of one case each into an empty
directory; the second call lands at index 1 with the count advanced. -/
theorem store_files_append_only_witness :
    getTestCasesCount (store_files [] ["a"] ["b"] none) = 0 + 1
  ∧ (FName.caseIn (0 + 1 + 0), "c")
      ∈ store_files (store_files [] ["a"] ["b"] none) ["c"] ["d"] none
  ∧ (FName.caseOut (0 + 1 + 0), "d")
      ∈ store_files (store_files [] ["a"] ["b"] none) ["c"] ["d"] none := by
  have hC : CanonicalDir ([] : FS) 0 := by
    refine ⟨by simp [KeysNodup, keysOf], ?_, ?_⟩
    · intro i
      simp [hasKey]
    · intro i h
      simp [hasKey] at h
  have h := store_files_append_only [] 0 ["a"] ["b"] ["c"] ["d"] none none hC rfl
  exact ⟨h.1, h.2.1 0 (by decide), h.2.2.1 0 (by decide)⟩

/-- C10: In every batch-request handler, when a fetch in the batch yields a
null response (complete transport failure rather than a non-200 status),
the handler dereferences the null response's url field when building the
failed-link list, so a fully failed request raises an error instead of
being recorded as a failed link and retried. -/
theorem null_response_raises_attribute_error (rs : List Resp)
    (h : Resp.null ∈ rs) :
    cf_handle_batch_requests rs = Except.error PyAttrError.noneHasNoUrl
  ∧ cc_handle_batch_requests rs = Except.error PyAttrError.noneHasNoUrl
  ∧ hr_handle_batch_requests rs = Except.error PyAttrError.noneHasNoUrl := by
  induction rs with
  | nil => simp at h
  | cons r rs ih =>
    cases r with
    | ok u =>
      have h2 : Resp.null ∈ rs := by
        rcases List.mem_cons.mp h with h3 | h3
        · exact absurd h3 (by simp)
        · exact h3
      obtain ⟨e1, e2, e3⟩ := ih h2
      exact ⟨by rw [cf_handle_batch_requests, e1],
             by rw [cc_handle_batch_requests, e2],
             by rw [hr_handle_batch_requests, e3]⟩
    | bad u =>
      have h2 : Resp.null ∈ rs := by
        rcases List.mem_cons.mp h with h3 | h3
        · exact absurd h3 (by simp)
        · exact h3
      obtain ⟨e1, e2, e3⟩ := ih h2
      exact ⟨by rw [cf_handle_batch_requests, e1]; rfl,
             by rw [cc_handle_batch_requests, e2]; rfl,
             by rw [hr_handle_batch_requests, e3]; rfl⟩
    | null =>
      exact ⟨rfl, rfl, rfl⟩

/-- Witness for C10: a batch of one failed link and one null response
raises rather than returning a failed list. -/
theorem null_response_raises_attribute_error_witness :
    cf_handle_batch_requests [Resp.bad "u", Resp.null]
      = Except.error PyAttrError.noneHasNoUrl :=
  (null_response_raises_attribute_error [Resp.bad "u", Resp.null] (by decide)).1

theorem handle_batch_runWave (f : String → Bool) (links : List String) :
    cf_handle_batch_requests (runWave f links) =
      Except.ok (links.filter (fun u => !(f u))) := by
  induction links with
  | nil => rfl
  | cons u links ih =>
    have hmap : runWave f (u :: links)
        = (if f u then Resp.ok u else Resp.bad u) :: runWave f links := rfl
    by_cases hf : f u = true
    · rw [hmap, if_pos hf]
      rw [show cf_handle_batch_requests (Resp.ok u :: runWave f links)
          = cf_handle_batch_requests (runWave f links) from rfl]
      rw [ih, List.filter_cons]
      simp [hf]
    · have hf2 : f u = false := by
        cases hfu : f u with
        | true => exact absurd hfu hf
        | false => rfl
      rw [hmap, if_neg hf]
      rw [show cf_handle_batch_requests (Resp.bad u :: runWave f links)
          = (cf_handle_batch_requests (runWave f links)).map (fun l => u :: l) from rfl]
      rw [ih, List.filter_cons]
      simp [hf2]
      rfl

/-- C4: For every batch of N links in which K links fail on the first wave,
exactly those K links are retried exactly once as a second wave, and every
link still failing after the retry appears exactly once in the unresolved
list surfaced to the caller, with no duplicates and no further retries. -/
theorem batch_retry_once_unresolved (links : List String)
    (f1 f2 : String → Bool) (hnd : links.Nodup) :
    ∃ failed unresolved,
      scrape_contest_retry links f1 f2 = Except.ok (failed, unresolved)
      ∧ failed = links.filter (fun u => !(f1 u))
      ∧ unresolved = failed.filter (fun u => !(f2 u))
      ∧ unresolved.Nodup
      ∧ (∀ u, u ∈ unresolved ↔ (u ∈ links ∧ f1 u = false ∧ f2 u = false))
      ∧ (∀ u ∈ unresolved, unresolved.count u = 1) := by
  have h1 := handle_batch_runWave f1 links
  have h2 := handle_batch_runWave f2 (links.filter (fun u => !(f1 u)))
  refine ⟨links.filter (fun u => !(f1 u)),
          (links.filter (fun u => !(f1 u))).filter (fun u => !(f2 u)),
          ?_, rfl, rfl, ?_, ?_, ?_⟩
  · by_cases hl : (links.filter (fun u => !(f1 u))).length > 0
    · simp only [scrape_contest_retry, h1, if_pos hl, h2]
    · simp only [scrape_contest_retry, h1, if_neg hl]
      have hempty : links.filter (fun u => !(f1 u)) = [] := by
        cases he : links.filter (fun u => !(f1 u)) with
        | nil => rfl
        | cons x xs =>
          exfalso
          rw [he] at hl
          simp at hl
      rw [hempty]
      rfl
  · exact (hnd.filter _).filter _
  · intro u
    simp only [List.mem_filter, Bool.not_eq_true']
    constructor
    · rintro ⟨⟨hm, hf1⟩, hf2⟩
      exact ⟨hm, hf1, hf2⟩
    · rintro ⟨hm, hf1, hf2⟩
      exact ⟨⟨hm, hf1⟩, hf2⟩
  · intro u hu
    exact List.count_eq_one_of_mem ((hnd.filter _).filter _) hu

/-- Witness for C4: three distinct links, two fail the first wave, one
still fails the retry and is the sole unresolved link. -/
theorem batch_retry_once_unresolved_witness :
    scrape_contest_retry ["u", "v", "w"] (fun u => u == "w") (fun u => u == "u")
      = Except.ok (["u", "v"], ["v"]) := by
  obtain ⟨failed, unresolved, he, hf, hu, _h3, _h4, _h5⟩ :=
    batch_retry_once_unresolved ["u", "v", "w"]
      (fun u => u == "w") (fun u => u == "u") (by decide)
  rw [he, hf, hu, hf]
  rfl

/-- C5 (code evidence): with a non-zero compile status the run aborts with
the NameError from the undefined name prin at line 402 and produces zero
per-case verdicts; in particular the compilation-error report the claim
expects is never emitted.  With a zero compile status all cases run. -/
theorem compile_failure_raises_name_error :
    run_solution_cases 1 3
      (fun _ => run_command_on_one_test 0 "6" "6")
      = Except.error PyNameError.prinUndefined
  ∧ run_solution_cases 0 1
      (fun _ => run_command_on_one_test 0 "6" "6")
      = Except.ok [("6", "6", verdictStr Verdict.AC)] := by
  constructor
  · rfl
  · simp [run_solution_cases]
    decide
